import Mathlib

/-!
Verification development for the `content-manager` CLI
(`src/index` command surface + `src/github-client.ts`).

The TypeScript source is shallowly embedded:

* JavaScript strings are Lean `String`s (a list of characters; the
  UTF-16 code-unit view is not modelled — no claim depends on it).
* `undefined`-able option fields are `Option String`; JavaScript
  truthiness on strings (`undefined`/`""` are falsy) is `jsTruthy`;
  `a || b` on strings is `jsOr`.
* The external GitHub API (reached through octokit) is not part of the
  repository; where its behaviour decides a claim it is modelled from
  the spec, in definitions whose doc comments start `Modelled from the
  spec:`.
* Base64 transport encoding/decoding (`Buffer.from(..., "base64")`) is
  external library code; the client-layer functions take the
  encode/decode functions as explicit parameters.
-/

/-- JavaScript truthiness of a possibly-undefined string option:
`undefined` and `""` are falsy, any other string is truthy. -/
def jsTruthy : Option String → Bool
  | none => false
  | some s => s != ""

/-- JavaScript `a || b` for a possibly-undefined string `a` with
default `b`. -/
def jsOr (a : Option String) (b : String) : String :=
  match a with
  | some s => if s = "" then b else s
  | none => b

/-- Splitting a character list on a non-empty separator at every
leftmost non-overlapping occurrence, as JavaScript
`String.prototype.split` does for a non-empty separator.  `acc` holds
the (reversed) characters of the piece being built; `fuel` bounds the
recursion (any `fuel > l.length` is enough). -/
def splitAuxC (sep : List Char) : Nat → List Char → List Char → List (List Char)
  | 0, acc, l => [acc.reverse ++ l]
  | fuel + 1, acc, l =>
    match l with
    | [] => [acc.reverse]
    | c :: rest =>
      if sep.isPrefixOf (c :: rest) then
        acc.reverse :: splitAuxC sep fuel [] (List.drop sep.length (c :: rest))
      else
        splitAuxC sep fuel (c :: acc) rest

/-- JavaScript `s.split(sep)`.  For the empty separator JavaScript
splits into the individual characters (and `"".split("")` is `[]`). -/
def splitJS (s sep : String) : List String :=
  if sep = "" then
    s.data.map (fun c => String.mk [c])
  else
    (splitAuxC sep.data (s.data.length + 1) [] s.data).map String.mk

/-- JavaScript `parts.join(sep)`: the empty list joins to `""`. -/
def joinWithSep (sep : String) : List String → String
  | [] => ""
  | [x] => x
  | x :: y :: rest => x ++ sep ++ joinWithSep sep (y :: rest)

/-- The source's `content.split(find).join(replace)` idiom for
replacing every leftmost non-overlapping occurrence of `find` by
`replace`. -/
def replaceAllJS (content find replace : String) : String :=
  joinWithSep replace (splitJS content find)

/-- Options of the `update` command.  `branch` and `message` carry
commander defaults (`"main"`, `"Update content"`) and so are always
present; the four transform options are optional. -/
structure UpdateOptions where
  branch : String
  message : String
  find : Option String
  replace : Option String
  append : Option String
  prepend : Option String
deriving DecidableEq, Repr

/-- The find/replace block of the `update` action
(`if (options.find && options.replace !== undefined) { ... }`):
returns the (possibly rewritten) content and whether `modified` was
set by this step. -/
def findReplaceStep (content : String) (find replace : Option String) :
    String × Bool :=
  if jsTruthy find && replace.isSome then
    let newContent := replaceAllJS content (find.getD "") (replace.getD "")
    if newContent ≠ content then (newContent, true) else (content, false)
  else
    (content, false)

/-- The transformation block of the `update` action: find/replace,
then append (if truthy), then prepend (if truthy), threading the
`modified` flag exactly as the source does. -/
def applyUpdateTransforms (content0 : String) (o : UpdateOptions) :
    String × Bool :=
  let s1 := findReplaceStep content0 o.find o.replace
  let s2 := if jsTruthy o.append then (s1.1 ++ o.append.getD "", true) else s1
  let s3 := if jsTruthy o.prepend then (o.prepend.getD "" ++ s2.1, true) else s2
  s3

/-- The spec's error taxonomy (section 7).  The source raises plain
`Error`s with messages; each constructor stands for one class of
message. -/
inductive CmdError where
  | NotFound
  | NotAFile
  | EmptyContent
  | StalePrecondition
  | LocalMissing
  | Unclassified (msg : String)
deriving DecidableEq, Repr

/-- An error thrown by the octokit transport (`error.status` is absent
on plain JavaScript `Error`s). -/
structure OctoError where
  status : Option Nat
  message : String
deriving DecidableEq, Repr

/-- One entry of a directory listing returned by the remote
get-content API (`item.type`, `item.path`). -/
structure DirEntry where
  type : String
  path : String
deriving DecidableEq, Repr

/-- The `data` of an octokit `repos.getContent` response: either a
directory listing (a JavaScript array) or a single item carrying
`type`, optional `content`, `sha`, `path` and optional `encoding`.
Revision markers (shas) are modelled as naturals. -/
inductive ContentData where
  | listing (entries : List DirEntry)
  | item (type : String) (content : Option String) (sha : Nat)
      (path : String) (encoding : Option String)
deriving DecidableEq, Repr

/-- The `FileContent` record of `github-client.ts`. -/
structure FileContent where
  content : String
  sha : Nat
  path : String
  encoding : String
deriving DecidableEq, Repr

/-- The `CommitResult` record of `github-client.ts`. -/
structure CommitResult where
  sha : Nat
  url : String
  message : String
deriving DecidableEq, Repr

/-- Association-list lookup keyed on strings. -/
def lookupA {α : Type} : List (String × α) → String → Option α
  | [], _ => none
  | e :: rest, k => if e.1 = k then some e.2 else lookupA rest k

/-- Association-list update/insert keyed on strings. -/
def setA {α : Type} : List (String × α) → String → α → List (String × α)
  | [], k, v => [(k, v)]
  | e :: rest, k, v => if e.1 = k then (k, v) :: rest else e :: setA rest k v

/-- Modelled from the spec: the remote repository's state for one file
— its current (wire-encoded) content and current revision marker. -/
structure RemoteFile where
  content : String
  sha : Nat
deriving DecidableEq, Repr

/-- Modelled from the spec: the remote repository's committed state, a
map from path to file plus a counter generating fresh revision markers
("the remote system always advances revision on write").  Branch
interplay is not modelled: the spec gives a per-path consistency
contract only. -/
structure Remote where
  files : List (String × RemoteFile)
  counter : Nat
deriving DecidableEq, Repr

/-- Modelled from the spec: a write commits the new content under a
fresh revision marker. -/
def Remote.write (r : Remote) (p c : String) : Remote :=
  { files := setA r.files p { content := c, sha := r.counter },
    counter := r.counter + 1 }

/-- Modelled from the spec: the remote create-or-update-content call
with a revision-marker precondition.  "The remote system must reject
the update (surfacing a conflict error) if the current remote revision
marker differs." -/
def remoteCheckin (r : Remote) (p c msg : String) (m : Nat) :
    Except CmdError (CommitResult × Remote) :=
  match lookupA r.files p with
  | some f =>
    if f.sha = m then
      .ok ({ sha := r.counter, url := "commit/" ++ toString r.counter,
             message := msg },
           r.write p c)
    else
      .error .StalePrecondition
  | none => .error (.Unclassified "no such path")

/-- Modelled from the spec: the unconditional create/update call (no
precondition). -/
def remoteCreate (r : Remote) (p c msg : String) : CommitResult × Remote :=
  ({ sha := r.counter, url := "commit/" ++ toString r.counter, message := msg },
   r.write p c)

/-- Modelled from the spec: the remote get-content call on our remote
state — file content plus revision marker on read, a 404 error on
absence. -/
def remoteGetContent (r : Remote) (p : String) : Except OctoError ContentData :=
  match lookupA r.files p with
  | some f => .ok (.item "file" (some f.content) f.sha p (some "base64"))
  | none => .error { status := some 404, message := "Not Found" }

/-- A request submitted to the remote system: a conditional checkin or
an unconditional create. -/
inductive RemoteReq where
  | checkin (path content message : String) (sha : Nat)
  | create (path content message : String)
deriving DecidableEq, Repr

/-- One remote step: apply a request, returning whether it succeeded
and the successor remote state (a failed request leaves the state
unchanged). -/
def remoteApply (r : Remote) : RemoteReq → Bool × Remote
  | .checkin p c msg m =>
    match remoteCheckin r p c msg m with
    | .ok x => (true, x.2)
    | .error _ => (false, r)
  | .create p c msg => (true, (remoteCreate r p c msg).2)

/-- Number of requests in the sequence that are checkins against path
`p` with precondition marker `m` and succeed, executing the sequence
from state `r`. -/
def staleSuccesses (p : String) (m : Nat) : Remote → List RemoteReq → Nat
  | _, [] => 0
  | r, q :: rest =>
    let s := remoteApply r q
    (match q with
     | .checkin p' _ _ m' => if p' = p ∧ m' = m ∧ s.1 = true then 1 else 0
     | .create _ _ _ => 0) + staleSuccesses p m s.2 rest

/-- Well-formedness of the remote state: every committed revision
marker was generated by the counter, hence is below it. -/
def Remote.Wf (r : Remote) : Prop :=
  ∀ e ∈ r.files, e.2.sha < r.counter

/-- Marker `m` is dead for path `p`: the counter has passed it and it
is not the current marker of `p`, so no future checkin conditioned on
`m` at `p` can succeed. -/
def DeadMarker (r : Remote) (p : String) (m : Nat) : Prop :=
  m < r.counter ∧ ∀ f, lookupA r.files p = some f → f.sha ≠ m

/-- The method `GitHubClient.checkout`, as a function of the octokit
`getContent` response and of the base64-decode function: classifies
directories, non-file types, 404s and empty content, and otherwise
returns the decoded content with sha, path and encoding. -/
def GitHubClient.checkout (decode : String → String)
    (resp : Except OctoError ContentData) : Except CmdError FileContent :=
  match resp with
  | .error e =>
    if e.status = some 404 then .error .NotFound else .error (.Unclassified e.message)
  | .ok (.listing _) => .error .NotAFile
  | .ok (.item ty content sha path enc) =>
    if ty ≠ "file" then .error .NotAFile
    else if jsTruthy content = false then .error .EmptyContent
    else
      .ok { content := decode (content.getD ""), sha := sha, path := path,
            encoding := jsOr enc "base64" }

/-- The method `GitHubClient.checkin`: encodes the content and submits the
conditional update to the remote.  The `branch` argument is forwarded
to the API call; the remote model is per-path. -/
def GitHubClient.checkin (encode : String → String) (r : Remote)
    (path content message : String) (sha : Nat) (branch : String) :
    Except CmdError (CommitResult × Remote) :=
  remoteCheckin r path (encode content) message sha

/-- The method `GitHubClient.listFiles`, as a function of the octokit
`getContent` response: a non-array response yields the single item's
path; an array yields the paths of its `type = "file"` entries. -/
def GitHubClient.listFiles (resp : Except OctoError ContentData) :
    Except OctoError (List String) :=
  match resp with
  | .error e => .error e
  | .ok (.listing es) => .ok ((es.filter (fun i => i.type = "file")).map (fun i => i.path))
  | .ok (.item _ _ _ p _) => .ok [p]

/-- The sidecar metadata record written next to a checked-out file
(`<contentPath>.meta.json`). -/
structure Meta where
  path : String
  sha : Nat
  branch : String
  checkedOutAt : String
  lastCommit : Option String
  lastUpdatedAt : Option String
deriving DecidableEq, Repr

/-- A local file is either plain text content or a serialized sidecar
record (JSON serialization itself is not modelled). -/
inductive LocalFile where
  | text (s : String)
  | meta (m : Meta)
deriving DecidableEq, Repr

/-- The local working directory: a map from file name to file. -/
abbrev LocalFS := List (String × LocalFile)

/-- Reading a local file as text (`fs.readFileSync(file, "utf-8")`). -/
def readText : LocalFile → String
  | .text s => s
  | .meta _ => ""

/-- Parsing a sidecar file (`JSON.parse`): fails on a non-sidecar file. -/
def readMeta : LocalFile → Option Meta
  | .meta m => some m
  | .text _ => none

/-- Options of the `checkin` command: `message` has a commander
default, `--branch` has none. -/
structure CheckinOptions where
  message : String
  branch : Option String
deriving DecidableEq, Repr

/-- A remote API call issued by a command, recorded for the frame
properties ("performs no remote call"). -/
inductive RemoteCall where
  | checkoutC (path branch : String)
  | checkinC (path content message : String) (sha : Nat) (branch : String)
deriving DecidableEq, Repr

/-- Outcome of one `checkin` command invocation. -/
structure CheckinOut where
  fs : LocalFS
  remote : Remote
  calls : List RemoteCall
  result : Except CmdError CommitResult
deriving Repr

/-- The `checkin` command action: requires the local content file and
its sidecar, reads them, computes the branch by the source's
`options.branch || meta.branch || "main"`, submits the conditional
checkin, and only on success rewrites the sidecar with the new
commit's sha, url and timestamp. -/
def checkinAction (encode : String → String) (fs : LocalFS) (r : Remote)
    (file : String) (o : CheckinOptions) (now : String) : CheckinOut :=
  match lookupA fs file with
  | none => ⟨fs, r, [], .error .LocalMissing⟩
  | some lf =>
    let content := readText lf
    let metaPath := file ++ ".meta.json"
    match lookupA fs metaPath with
    | none => ⟨fs, r, [], .error .LocalMissing⟩
    | some mlf =>
      match readMeta mlf with
      | none => ⟨fs, r, [], .error (.Unclassified "invalid metadata")⟩
      | some meta =>
        let branch := jsOr o.branch (jsOr (some meta.branch) "main")
        let call := RemoteCall.checkinC meta.path (encode content) o.message
          meta.sha branch
        match GitHubClient.checkin encode r meta.path content o.message
            meta.sha branch with
        | .error e => ⟨fs, r, [call], .error e⟩
        | .ok x =>
          let meta' :=
            { meta with
              sha := x.1.sha
              lastCommit := some x.1.url
              lastUpdatedAt := some now }
          ⟨setA fs metaPath (.meta meta'), x.2, [call], .ok x.1⟩

/-- Result of one `update` command invocation: either no transform
changed the content (checkin skipped) or a commit was made. -/
inductive UpdateResult where
  | skipped
  | committed (cr : CommitResult)
deriving DecidableEq, Repr

/-- Outcome of one `update` command invocation. -/
structure UpdateOut where
  fs : LocalFS
  remote : Remote
  calls : List RemoteCall
  result : Except CmdError UpdateResult
deriving Repr

/-- The `update` command action: checkout, apply the transforms, and,
only if the `modified` flag was set, check the transformed content
back in with the just-fetched revision marker.  The local filesystem
is threaded through untouched — the source's update action performs no
`fs` call. -/
def updateAction (encode decode : String → String) (fs : LocalFS) (r : Remote)
    (file : String) (o : UpdateOptions) : UpdateOut :=
  let coCall := RemoteCall.checkoutC file o.branch
  match GitHubClient.checkout decode (remoteGetContent r file) with
  | .error e => ⟨fs, r, [coCall], .error e⟩
  | .ok fc =>
    let t := applyUpdateTransforms fc.content o
    if t.2 = true then
      let ciCall := RemoteCall.checkinC file (encode t.1) o.message fc.sha o.branch
      match GitHubClient.checkin encode r file t.1 o.message fc.sha o.branch with
      | .error e => ⟨fs, r, [coCall, ciCall], .error e⟩
      | .ok x => ⟨fs, x.2, [coCall, ciCall], .ok (.committed x.1)⟩
    else
      ⟨fs, r, [coCall], .ok .skipped⟩

/-! ## Helper lemmas -/

theorem findReplaceStep_fst (content f r : String) (hf : f ≠ "") :
    (findReplaceStep content (some f) (some r)).1 = replaceAllJS content f r := by
  unfold findReplaceStep
  simp only [jsTruthy, Option.isSome_some, Bool.and_true, Option.getD_some]
  rw [if_pos (by simpa using hf)]
  split
  · rfl
  · next h => exact (not_ne_iff.mp h).symm

theorem findReplaceStep_noop (content : String) (find replace : Option String)
    (h : ∀ f, find = some f → f ≠ "" → splitJS content f = [content]) :
    findReplaceStep content find replace = (content, false) := by
  unfold findReplaceStep
  cases find with
  | none => simp [jsTruthy]
  | some f =>
    by_cases hf : f = ""
    · simp [jsTruthy, hf]
    · cases replace with
      | none => simp [jsTruthy]
      | some r =>
        simp only [jsTruthy, Option.isSome_some, Bool.and_true, Option.getD_some]
        rw [if_pos (by simpa using hf)]
        have hr : replaceAllJS content f r = content := by
          rw [replaceAllJS, h f rfl hf]; rfl
        simp [hr]

theorem transforms_order (content f r a p b msg : String) (hf : f ≠ "") :
    (applyUpdateTransforms content ⟨b, msg, some f, some r, some a, some p⟩).1
      = p ++ (replaceAllJS content f r ++ a) := by
  unfold applyUpdateTransforms
  have h1 := findReplaceStep_fst content f r hf
  by_cases ha : a = "" <;> by_cases hp : p = "" <;>
    simp [jsTruthy, ha, hp, h1, String.append_empty, String.empty_append]

theorem transforms_fst_of_not_modified (c : String) (o : UpdateOptions)
    (h : (applyUpdateTransforms c o).2 = false) :
    (applyUpdateTransforms c o).1 = c := by
  simp only [applyUpdateTransforms, findReplaceStep] at h ⊢
  split_ifs at h ⊢ <;> simp_all

theorem transforms_snd_of_append (c : String) (o : UpdateOptions)
    (h : jsTruthy o.append = true) :
    (applyUpdateTransforms c o).2 = true := by
  unfold applyUpdateTransforms
  by_cases hp : jsTruthy o.prepend = true <;> simp [hp, h]

theorem checkout_ok_of_lookup (decode : String → String) (rm : Remote)
    (file : String) (rf : RemoteFile) (hl : lookupA rm.files file = some rf)
    (hc : rf.content ≠ "") :
    GitHubClient.checkout decode (remoteGetContent rm file)
      = .ok ⟨decode rf.content, rf.sha, file, "base64"⟩ := by
  rw [remoteGetContent, hl]
  unfold GitHubClient.checkout
  simp [jsTruthy, hc, jsOr]

theorem remoteCheckin_current (rm : Remote) (p c msg : String) (rf : RemoteFile)
    (hl : lookupA rm.files p = some rf) :
    remoteCheckin rm p c msg rf.sha
      = .ok ({ sha := rm.counter, url := "commit/" ++ toString rm.counter,
               message := msg }, rm.write p c) := by
  rw [remoteCheckin, hl]
  simp

theorem lookupA_set_self {α : Type} (l : List (String × α)) (k : String) (v : α) :
    lookupA (setA l k v) k = some v := by
  induction l with
  | nil => simp [setA, lookupA]
  | cons e rest ih =>
    by_cases h : e.1 = k
    · simp [setA, h, lookupA]
    · simp [setA, h, lookupA, ih]

theorem lookupA_set_ne {α : Type} (l : List (String × α)) (k k' : String) (v : α)
    (h : k' ≠ k) : lookupA (setA l k v) k' = lookupA l k' := by
  induction l with
  | nil => simp [setA, lookupA, Ne.symm h]
  | cons e rest ih =>
    by_cases he : e.1 = k
    · simp only [setA, if_pos he, lookupA]
      rw [if_neg (by rw [he] at *; exact Ne.symm h), if_neg (he ▸ Ne.symm h)]
    · simp only [setA, if_neg he, lookupA]
      by_cases he' : e.1 = k'
      · rw [if_pos he', if_pos he']
      · rw [if_neg he', if_neg he', ih]

theorem mem_of_lookupA {α : Type} (l : List (String × α)) (k : String) (v : α)
    (h : lookupA l k = some v) : (k, v) ∈ l := by
  induction l with
  | nil => simp [lookupA] at h
  | cons e rest ih =>
    obtain ⟨a, b⟩ := e
    simp only [lookupA] at h
    by_cases he : a = k
    · rw [if_pos he] at h
      obtain rfl := Option.some.inj h
      subst he
      exact List.mem_cons_self _ _
    · rw [if_neg he] at h
      exact List.mem_cons_of_mem _ (ih h)

theorem mem_setA {α : Type} (l : List (String × α)) (k : String) (v : α)
    (e : String × α) (h : e ∈ setA l k v) : e = (k, v) ∨ e ∈ l := by
  induction l with
  | nil => simpa [setA] using h
  | cons e' rest ih =>
    by_cases he : e'.1 = k
    · rw [setA.eq_def] at h
      simp only [if_pos he] at h
      rcases List.mem_cons.mp h with h1 | h2
      · exact Or.inl h1
      · exact Or.inr (List.mem_cons_of_mem _ h2)
    · rw [setA.eq_def] at h
      simp only [if_neg he] at h
      rcases List.mem_cons.mp h with h1 | h2
      · exact Or.inr (h1 ▸ List.mem_cons_self _ _)
      · rcases ih h2 with h3 | h4
        · exact Or.inl h3
        · exact Or.inr (List.mem_cons_of_mem _ h4)

theorem wf_write (r : Remote) (hw : r.Wf) (p c : String) : (r.write p c).Wf := by
  intro e he
  rcases mem_setA r.files p ⟨c, r.counter⟩ e he with rfl | hmem
  · exact Nat.lt_succ_self _
  · exact Nat.lt_succ_of_lt (hw e hmem)

theorem remoteApply_wf (r : Remote) (q : RemoteReq) (hw : r.Wf) :
    (remoteApply r q).2.Wf := by
  cases q with
  | checkin p c msg m =>
    simp only [remoteApply, remoteCheckin]
    cases hl : lookupA r.files p with
    | none => simpa using hw
    | some f =>
      by_cases hm : f.sha = m
      · simpa [hm] using wf_write r hw p c
      · simpa [hm] using hw
  | create p c msg => exact wf_write r hw p c

theorem dead_write (r : Remote) (p' c p : String) (m : Nat)
    (hd : DeadMarker r p m) : DeadMarker (r.write p' c) p m := by
  refine ⟨Nat.lt_succ_of_lt hd.1, ?_⟩
  intro f hf
  by_cases hpp : p = p'
  · subst hpp
    rw [Remote.write] at hf
    simp only [lookupA_set_self] at hf
    obtain rfl := Option.some.inj hf
    exact Ne.symm (Nat.ne_of_lt hd.1)
  · rw [Remote.write] at hf
    simp only [lookupA_set_ne _ _ _ _ hpp] at hf
    exact hd.2 f hf

theorem dead_step (r : Remote) (q : RemoteReq) (p : String) (m : Nat)
    (hd : DeadMarker r p m) : DeadMarker (remoteApply r q).2 p m := by
  cases q with
  | create p' c msg => exact dead_write r p' c p m hd
  | checkin p' c msg m' =>
    simp only [remoteApply, remoteCheckin]
    cases hl : lookupA r.files p' with
    | none => simpa using hd
    | some f =>
      by_cases hm : f.sha = m'
      · simpa [hm] using dead_write r p' c p m hd
      · simpa [hm] using hd

theorem dead_checkin_fails (r : Remote) (p : String) (m : Nat) (c msg : String)
    (hd : DeadMarker r p m) : remoteApply r (.checkin p c msg m) = (false, r) := by
  simp only [remoteApply, remoteCheckin]
  cases hl : lookupA r.files p with
  | none => simp
  | some f => simp [hd.2 f hl]

theorem dead_after_success (r : Remote) (p : String) (m : Nat) (c msg : String)
    (hw : r.Wf) (hs : (remoteApply r (.checkin p c msg m)).1 = true) :
    DeadMarker (remoteApply r (.checkin p c msg m)).2 p m := by
  cases hl : lookupA r.files p with
  | none => simp [remoteApply, remoteCheckin, hl] at hs
  | some f =>
    by_cases hm : f.sha = m
    · simp only [remoteApply, remoteCheckin, hl, if_pos hm]
      have hlt : m < r.counter := hm ▸ hw (p, f) (mem_of_lookupA _ _ _ hl)
      refine ⟨Nat.lt_succ_of_lt hlt, ?_⟩
      intro f' hf'
      rw [Remote.write] at hf'
      simp only [lookupA_set_self] at hf'
      obtain rfl := Option.some.inj hf'
      exact Ne.symm (Nat.ne_of_lt hlt)
    · simp [remoteApply, remoteCheckin, hl, if_neg hm] at hs

theorem dead_staleSuccesses_zero (p : String) (m : Nat) (qs : List RemoteReq) :
    ∀ r : Remote, DeadMarker r p m → staleSuccesses p m r qs = 0 := by
  induction qs with
  | nil => intro r _; rfl
  | cons q rest ih =>
    intro r hd
    simp only [staleSuccesses]
    rw [ih (remoteApply r q).2 (dead_step r q p m hd)]
    cases q with
    | create p' c msg => rfl
    | checkin p' c msg m' =>
      by_cases hpm : p' = p ∧ m' = m
      · obtain ⟨rfl, rfl⟩ := hpm
        rw [dead_checkin_fails r p' m' c msg hd]
        simp
      · simp only [Nat.add_zero, ite_eq_right_iff]
        intro hcond
        exact absurd ⟨hcond.1, hcond.2.1⟩ hpm

/-! ## Claim theorem for the remote consistency guarantee -/

/-- C2: over any execution of requests against the remote system, at
most one checkin conditioned on a given revision marker `m` against a
given path `p` succeeds — the remote rejects any conditional update
whose supplied marker differs from the current one, and a success
replaces the current marker by a fresh one, so the property "two
checkins against the same stale marker both succeed" is unreachable
from any well-formed remote state. -/
theorem checkin_same_marker_at_most_once (p : String) (m : Nat)
    (qs : List RemoteReq) : ∀ r : Remote, r.Wf → staleSuccesses p m r qs ≤ 1 := by
  induction qs with
  | nil => intro r _; exact Nat.zero_le 1
  | cons q rest ih =>
    intro r hw
    simp only [staleSuccesses]
    have hw' : (remoteApply r q).2.Wf := remoteApply_wf r q hw
    cases q with
    | create p' c msg => simpa using ih _ hw'
    | checkin p' c msg m' =>
      dsimp only
      by_cases hc : p' = p ∧ m' = m ∧ (remoteApply r (.checkin p' c msg m')).1 = true
      · obtain ⟨rfl, rfl, hsucc⟩ := hc
        rw [if_pos ⟨rfl, rfl, hsucc⟩,
          dead_staleSuccesses_zero p' m' rest _
            (dead_after_success r p' m' c msg hw hsucc)]
      · rw [if_neg hc]
        simpa using ih _ hw'

/-! ## Claim theorems for the update command -/

/-- C3: for every checked-out content string and given transform
options (`find` non-empty so the find/replace branch is active), the
content produced for checkin is prepend ++ (find/replace result ++
append) — replace first, then append, then prepend; on content "hi"
with find "h", replace "H", append "!", prepend ">> " the result is
">> Hi!", and that is exactly the content the update action submits to
checkin. -/
theorem update_transform_order :
    (∀ (content f r a p b msg : String), f ≠ "" →
      (applyUpdateTransforms content ⟨b, msg, some f, some r, some a, some p⟩).1
        = p ++ (replaceAllJS content f r ++ a))
    ∧ (applyUpdateTransforms "hi"
        ⟨"main", "m", some "h", some "H", some "!", some ">> "⟩).1 = ">> Hi!"
    ∧ (∀ (encode decode : String → String) (fs : LocalFS) (rm : Remote)
        (file b msg f r a p : String) (rf : RemoteFile),
        lookupA rm.files file = some rf → rf.content ≠ "" → f ≠ "" → a ≠ "" →
        (updateAction encode decode fs rm file
            ⟨b, msg, some f, some r, some a, some p⟩).calls
          = [RemoteCall.checkoutC file b,
             RemoteCall.checkinC file
               (encode (p ++ (replaceAllJS (decode rf.content) f r ++ a)))
               msg rf.sha b]) := by
  refine ⟨fun content f r a p b msg hf => transforms_order content f r a p b msg hf,
    by decide, ?_⟩
  intro encode decode fs rm file b msg f r a p rf hl hc hf ha
  unfold updateAction
  rw [checkout_ok_of_lookup decode rm file rf hl hc]
  have hmod : (applyUpdateTransforms (decode rf.content)
      ⟨b, msg, some f, some r, some a, some p⟩).2 = true :=
    transforms_snd_of_append _ _ (by simp [jsTruthy, ha])
  have hord := transforms_order (decode rf.content) f r a p b msg hf
  dsimp only
  rw [if_pos hmod, hord]
  rw [GitHubClient.checkin, remoteCheckin_current rm file _ msg rf hl]

/-- C9: the update command never touches the local filesystem — the
working-directory state after an update invocation equals the state
before it, whether the command succeeds, skips the checkin, or fails. -/
theorem update_no_local_writes
    (encode decode : String → String) (fs : LocalFS) (rm : Remote)
    (file : String) (o : UpdateOptions) :
    (updateAction encode decode fs rm file o).fs = fs := by
  unfold updateAction
  dsimp only
  split
  · rfl
  · split
    · split <;> rfl
    · rfl

/-- C10: the find/replace transform runs only when `--find` is a
non-empty string (JavaScript-truthy) and `--replace` is supplied; with
`--find` absent or empty, or `--replace` absent, the step leaves the
content unchanged and does not set the modified flag (and, the step
being total, raises no error); when both are active the step's content
is the replace-all result. -/
theorem update_find_replace_guard (content : String)
    (find replace : Option String) :
    ((find = none ∨ find = some "" ∨ replace = none) →
      findReplaceStep content find replace = (content, false))
    ∧ (∀ f r, find = some f → f ≠ "" → replace = some r →
        (findReplaceStep content find replace).1 = replaceAllJS content f r) := by
  constructor
  · rintro (rfl | rfl | rfl)
    · simp [findReplaceStep, jsTruthy]
    · simp [findReplaceStep, jsTruthy]
    · simp [findReplaceStep, jsTruthy]
  · rintro f r rfl hf rfl
    exact findReplaceStep_fst content f r hf

/-- C4: if the find text does not occur in the checked-out content and
no append/prepend is given, the update command ends without a checkin
and without an error (result `skipped`, remote unchanged, only the
checkout call issued); and whenever the transforms changed the
content, a checkin of the transformed content is performed. -/
theorem update_noop_skips_checkin
    (encode decode : String → String) (fs : LocalFS) (rm : Remote)
    (file : String) (o : UpdateOptions) (rf : RemoteFile)
    (hl : lookupA rm.files file = some rf) (hc : rf.content ≠ "") :
    ((∀ f, o.find = some f → f ≠ "" →
        splitJS (decode rf.content) f = [decode rf.content]) →
      jsTruthy o.append = false → jsTruthy o.prepend = false →
      (updateAction encode decode fs rm file o).result = .ok .skipped ∧
      (updateAction encode decode fs rm file o).calls
        = [RemoteCall.checkoutC file o.branch] ∧
      (updateAction encode decode fs rm file o).remote = rm)
    ∧ (∀ c' m', applyUpdateTransforms (decode rf.content) o = (c', m') →
        c' ≠ decode rf.content →
        (updateAction encode decode fs rm file o).calls
          = [RemoteCall.checkoutC file o.branch,
             RemoteCall.checkinC file (encode c') o.message rf.sha o.branch]) := by
  constructor
  · intro hfind happ hpre
    have hstep : applyUpdateTransforms (decode rf.content) o
        = (decode rf.content, false) := by
      unfold applyUpdateTransforms
      rw [findReplaceStep_noop (decode rf.content) o.find o.replace hfind]
      simp [happ, hpre]
    unfold updateAction
    rw [checkout_ok_of_lookup decode rm file rf hl hc]
    dsimp only
    rw [hstep]
    simp
  · intro c' m' heq hne
    have hm : m' = true := by
      by_contra hm
      have hm' : (applyUpdateTransforms (decode rf.content) o).2 = false := by
        rw [heq]; simpa using hm
      have := transforms_fst_of_not_modified (decode rf.content) o hm'
      rw [heq] at this
      exact hne this
    subst hm
    unfold updateAction
    rw [checkout_ok_of_lookup decode rm file rf hl hc]
    dsimp only
    rw [heq]
    rw [GitHubClient.checkin, remoteCheckin_current rm file _ o.message rf hl]
    simp

/-! ## Claim theorems for the client layer -/

/-- C6: checkout classifies the remote response — a directory listing
fails with NotAFile, a 404 transport error fails with NotFound, a file
with no truthy content fails with EmptyContent, and a file with
content is returned base64-decoded together with its revision marker,
path and encoding. -/
theorem checkout_classification (decode : String → String)
    (e : OctoError) (es : List DirEntry) (content : Option String)
    (sha : Nat) (path : String) (enc : Option String) :
    (GitHubClient.checkout decode (.ok (.listing es)) = .error .NotAFile)
    ∧ (e.status = some 404 →
        GitHubClient.checkout decode (.error e) = .error .NotFound)
    ∧ (jsTruthy content = false →
        GitHubClient.checkout decode (.ok (.item "file" content sha path enc))
          = .error .EmptyContent)
    ∧ (∀ s, content = some s → s ≠ "" →
        GitHubClient.checkout decode (.ok (.item "file" content sha path enc))
          = .ok ⟨decode s, sha, path, jsOr enc "base64"⟩) := by
  refine ⟨rfl, ?_, ?_, ?_⟩
  · intro h
    simp [GitHubClient.checkout, h]
  · intro h
    simp [GitHubClient.checkout, h]
  · rintro s rfl hs
    simp [GitHubClient.checkout, jsTruthy, hs]

/-- C8: listFiles on a response that is a single file yields exactly
the one-element sequence of that file's path; on a directory listing
it yields exactly the paths of the entries whose type is "file",
sub-directory (and other non-file) entries excluded. -/
theorem listFiles_spec (es : List DirEntry) (content : Option String)
    (sha : Nat) (p : String) (enc : Option String) :
    (GitHubClient.listFiles (.ok (.item "file" content sha p enc)) = .ok [p])
    ∧ (∃ out, GitHubClient.listFiles (.ok (.listing es)) = .ok out ∧
        ∀ q : String, q ∈ out ↔ ∃ en, en ∈ es ∧ en.type = "file" ∧ en.path = q) := by
  refine ⟨rfl, _, rfl, ?_⟩
  intro q
  simp only [List.mem_map, List.mem_filter, decide_eq_true_eq]
  constructor
  · rintro ⟨en, ⟨hmem, hty⟩, rfl⟩
    exact ⟨en, hmem, hty, rfl⟩
  · rintro ⟨en, hmem, hty, rfl⟩
    exact ⟨en, ⟨hmem, hty⟩, rfl⟩

/-! ## Claim theorems for the checkin command -/

theorem checkinAction_fs_cases (encode : String → String) (fs : LocalFS)
    (r : Remote) (file : String) (o : CheckinOptions) (now : String) :
    (checkinAction encode fs r file o now).fs = fs ∨
    ∃ cr, (checkinAction encode fs r file o now).result = .ok cr := by
  unfold checkinAction
  dsimp only
  split
  · exact Or.inl rfl
  · split
    · exact Or.inl rfl
    · split
      · exact Or.inl rfl
      · split
        · exact Or.inl rfl
        · exact Or.inr ⟨_, rfl⟩

/-- C1: a checkin whose sidecar revision marker differs from the
file's current remote marker fails with StalePrecondition and leaves
both the local sidecar and the remote state unchanged; more generally
the sidecar is rewritten only when the remote checkin call returns
successfully. -/
theorem checkin_stale_rejected :
    (∀ (encode : String → String) (fs : LocalFS) (r : Remote) (file : String)
      (o : CheckinOptions) (now c : String) (m : Meta) (rf : RemoteFile),
      lookupA fs file = some (.text c) →
      lookupA fs (file ++ ".meta.json") = some (.meta m) →
      lookupA r.files m.path = some rf →
      m.sha ≠ rf.sha →
      (checkinAction encode fs r file o now).result = .error .StalePrecondition ∧
      (checkinAction encode fs r file o now).fs = fs ∧
      (checkinAction encode fs r file o now).remote = r)
    ∧ (∀ (encode : String → String) (fs : LocalFS) (r : Remote) (file : String)
        (o : CheckinOptions) (now : String) (e : CmdError),
        (checkinAction encode fs r file o now).result = .error e →
        (checkinAction encode fs r file o now).fs = fs) := by
  constructor
  · intro encode fs r file o now c m rf h1 h2 h3 hm
    have hm' : ¬(rf.sha = m.sha) := Ne.symm hm
    simp only [checkinAction, h1, h2, readText, readMeta, GitHubClient.checkin,
      remoteCheckin, h3, if_neg hm']
    refine ⟨?_, ?_, ?_⟩ <;> trivial
  · intro encode fs r file o now e h
    rcases checkinAction_fs_cases encode fs r file o now with hfs | ⟨cr, hok⟩
    · exact hfs
    · rw [h] at hok
      exact Except.noConfusion hok

/-- C5: a checkin invocation whose local content file or sidecar is
absent fails with LocalMissing, performs no remote call, and changes
neither the local filesystem nor the remote. -/
theorem checkin_local_missing (encode : String → String) (fs : LocalFS)
    (r : Remote) (file : String) (o : CheckinOptions) (now : String)
    (h : lookupA fs file = none ∨ lookupA fs (file ++ ".meta.json") = none) :
    (checkinAction encode fs r file o now).result = .error .LocalMissing ∧
    (checkinAction encode fs r file o now).calls = [] ∧
    (checkinAction encode fs r file o now).fs = fs ∧
    (checkinAction encode fs r file o now).remote = r := by
  rcases h with h | h
  · simp [checkinAction, h]
  · cases h1 : lookupA fs file with
    | none => simp [checkinAction, h1]
    | some lf => simp [checkinAction, h1, h]

/-- C7: on a successful checkin, the branch passed to the client obeys
the precedence explicit flag > sidecar branch > "main", and the
sidecar is rewritten with the new commit's sha, url and timestamp
while its path, branch and checkedOutAt fields are unchanged. -/
theorem checkin_branch_precedence_and_sidecar
    (encode : String → String) (fs : LocalFS) (r : Remote) (file : String)
    (o : CheckinOptions) (now c : String) (m : Meta) (rf : RemoteFile)
    (h1 : lookupA fs file = some (.text c))
    (h2 : lookupA fs (file ++ ".meta.json") = some (.meta m))
    (h3 : lookupA r.files m.path = some rf)
    (h4 : rf.sha = m.sha) :
    ∃ used cr m',
      (checkinAction encode fs r file o now).calls
        = [RemoteCall.checkinC m.path (encode c) o.message m.sha used] ∧
      (∀ b, o.branch = some b → b ≠ "" → used = b) ∧
      (o.branch = none → m.branch ≠ "" → used = m.branch) ∧
      (o.branch = none → m.branch = "" → used = "main") ∧
      (checkinAction encode fs r file o now).result = .ok cr ∧
      (checkinAction encode fs r file o now).fs
        = setA fs (file ++ ".meta.json") (.meta m') ∧
      m'.sha = cr.sha ∧ m'.lastCommit = some cr.url ∧
      m'.lastUpdatedAt = some now ∧
      m'.path = m.path ∧ m'.branch = m.branch ∧
      m'.checkedOutAt = m.checkedOutAt := by
  refine ⟨jsOr o.branch (jsOr (some m.branch) "main"),
    ⟨r.counter, "commit/" ++ toString r.counter, o.message⟩,
    { m with sha := r.counter,
             lastCommit := some ("commit/" ++ toString r.counter),
             lastUpdatedAt := some now }, ?_⟩
  simp only [checkinAction, h1, h2, readText, readMeta, GitHubClient.checkin,
    remoteCheckin, h3, if_pos h4]
  refine ⟨?_, ?_, ?_, ?_, ?_, ?_, ?_, ?_, ?_, ?_, ?_, ?_⟩
  · trivial
  · intro b hb hbne
    simp [jsOr, hb, hbne]
  · intro hb hbr
    simp [jsOr, hb, hbr]
  · intro hb hbr
    simp [jsOr, hb, hbr]
  all_goals trivial

/-! ## Witnesses -/

theorem checkin_same_marker_at_most_once_witness :
    staleSuccesses "a.txt" 0 ⟨[("a.txt", ⟨"x", 0⟩)], 1⟩
      [.checkin "a.txt" "y" "m" 0, .checkin "a.txt" "z" "m" 0] ≤ 1 :=
  checkin_same_marker_at_most_once "a.txt" 0
    [.checkin "a.txt" "y" "m" 0, .checkin "a.txt" "z" "m" 0]
    ⟨[("a.txt", ⟨"x", 0⟩)], 1⟩ (by unfold Remote.Wf; decide)

theorem update_transform_order_witness :
    (updateAction id id [] ⟨[("index.html", ⟨"hi", 3⟩)], 4⟩ "index.html"
        ⟨"main", "m", some "h", some "H", some "!", some ">> "⟩).calls
      = [RemoteCall.checkoutC "index.html" "main",
         RemoteCall.checkinC "index.html"
           (id (">> " ++ (replaceAllJS (id "hi") "h" "H" ++ "!"))) "m" 3 "main"] :=
  update_transform_order.2.2 id id [] ⟨[("index.html", ⟨"hi", 3⟩)], 4⟩
    "index.html" "main" "m" "h" "H" "!" ">> " ⟨"hi", 3⟩
    (by decide) (by decide) (by decide) (by decide)

theorem update_noop_skips_checkin_witness :
    (updateAction id id [] ⟨[("index.html", ⟨"hi", 3⟩)], 4⟩ "index.html"
        ⟨"main", "m", some "a", some "b", none, none⟩).result
      = .ok .skipped :=
  ((update_noop_skips_checkin id id [] ⟨[("index.html", ⟨"hi", 3⟩)], 4⟩
      "index.html" ⟨"main", "m", some "a", some "b", none, none⟩ ⟨"hi", 3⟩
      (by decide) (by decide)).1
    (by intro f hf hne; cases hf; decide) (by decide) (by decide)).1

theorem update_find_replace_guard_witness :
    findReplaceStep "hi" none none = ("hi", false) :=
  (update_find_replace_guard "hi" none none).1 (Or.inl rfl)

theorem checkout_classification_witness :
    GitHubClient.checkout id (.error ⟨some 404, "nf"⟩) = .error .NotFound ∧
    GitHubClient.checkout id (.ok (.item "file" (some "hi") 3 "index.html" none))
      = .ok ⟨"hi", 3, "index.html", "base64"⟩ := by
  constructor
  · exact (checkout_classification id ⟨some 404, "nf"⟩ [] none 0 "" none).2.1 rfl
  · exact (checkout_classification id ⟨none, ""⟩ [] (some "hi") 3 "index.html"
      none).2.2.2 "hi" rfl (by decide)

theorem listFiles_spec_witness :
    GitHubClient.listFiles (.ok (.item "file" none 0 "a.txt" none)) = .ok ["a.txt"] :=
  (listFiles_spec [] none 0 "a.txt" none).1

theorem checkin_stale_rejected_witness :
    (checkinAction id
        [("f.txt", .text "hello"),
         ("f.txt.meta.json", .meta ⟨"p.txt", 1, "main", "t0", none, none⟩)]
        ⟨[("p.txt", ⟨"x", 5⟩)], 6⟩ "f.txt" ⟨"msg", none⟩ "t1").result
      = .error .StalePrecondition :=
  (checkin_stale_rejected.1 id
    [("f.txt", .text "hello"),
     ("f.txt.meta.json", .meta ⟨"p.txt", 1, "main", "t0", none, none⟩)]
    ⟨[("p.txt", ⟨"x", 5⟩)], 6⟩ "f.txt" ⟨"msg", none⟩ "t1" "hello"
    ⟨"p.txt", 1, "main", "t0", none, none⟩ ⟨"x", 5⟩
    (by decide) (by decide) (by decide) (by decide)).1

theorem checkin_local_missing_witness :
    (checkinAction id [] ⟨[], 0⟩ "f.txt" ⟨"msg", none⟩ "t").result
      = .error .LocalMissing :=
  (checkin_local_missing id [] ⟨[], 0⟩ "f.txt" ⟨"msg", none⟩ "t" (Or.inl rfl)).1

theorem checkin_branch_precedence_and_sidecar_witness :
    ∃ used cr m',
      (checkinAction id
          [("f.txt", .text "hello"),
           ("f.txt.meta.json", .meta ⟨"p.txt", 5, "dev", "t0", none, none⟩)]
          ⟨[("p.txt", ⟨"x", 5⟩)], 6⟩ "f.txt" ⟨"msg", none⟩ "t1").calls
        = [RemoteCall.checkinC "p.txt" (id "hello") "msg" 5 used] ∧
      (∀ b, (none : Option String) = some b → b ≠ "" → used = b) ∧
      ((none : Option String) = none → "dev" ≠ "" → used = "dev") ∧
      ((none : Option String) = none → "dev" = "" → used = "main") ∧
      (checkinAction id
          [("f.txt", .text "hello"),
           ("f.txt.meta.json", .meta ⟨"p.txt", 5, "dev", "t0", none, none⟩)]
          ⟨[("p.txt", ⟨"x", 5⟩)], 6⟩ "f.txt" ⟨"msg", none⟩ "t1").result = .ok cr ∧
      (checkinAction id
          [("f.txt", .text "hello"),
           ("f.txt.meta.json", .meta ⟨"p.txt", 5, "dev", "t0", none, none⟩)]
          ⟨[("p.txt", ⟨"x", 5⟩)], 6⟩ "f.txt" ⟨"msg", none⟩ "t1").fs
        = setA
            [("f.txt", .text "hello"),
             ("f.txt.meta.json", .meta ⟨"p.txt", 5, "dev", "t0", none, none⟩)]
            ("f.txt" ++ ".meta.json") (.meta m') ∧
      m'.sha = cr.sha ∧ m'.lastCommit = some cr.url ∧
      m'.lastUpdatedAt = some "t1" ∧
      m'.path = "p.txt" ∧ m'.branch = "dev" ∧ m'.checkedOutAt = "t0" :=
  checkin_branch_precedence_and_sidecar id
    [("f.txt", .text "hello"),
     ("f.txt.meta.json", .meta ⟨"p.txt", 5, "dev", "t0", none, none⟩)]
    ⟨[("p.txt", ⟨"x", 5⟩)], 6⟩ "f.txt" ⟨"msg", none⟩ "t1" "hello"
    ⟨"p.txt", 5, "dev", "t0", none, none⟩ ⟨"x", 5⟩
    (by decide) (by decide) (by decide) (by decide)
